import Mathlib

/-!
Shallow embedding of the R69 point-system simulation
(`simulation_core.py`, `competition_logic.py`, `run_sweep.py`).

Points and skills are Python floats that only ever hold small integer
sums; they are modelled as rationals (`ℚ`).  Mutable `Participant`
objects are modelled two ways, each matching how the claims use them:

* a plain `Participant` structure for the read-only evaluation metrics
  and the per-competitor point accounting, and
* an explicit heap (`Heap := ℕ → PData`, addresses standing for object
  identities) for the stage logic and the stage-5 snapshot, where
  Python's object aliasing and `!=` identity comparisons matter.

Calls to `random.uniform` become explicit draw arguments.
-/

/-- `Participant` from `simulation_core.py`: identity, skill and the
mutable score accumulator (`total_points` starts at 0). -/
structure Participant where
  id : ℕ
  name : String
  initial_skill : ℚ
  total_points : ℚ
deriving Repr, DecidableEq

/-- `Participant.add_points`: add `points` to `total_points`, then clamp
the result up to `0.0` when it went negative. -/
def Participant.add_points (p : Participant) (points : ℚ) : Participant :=
  let t := p.total_points + points
  if t < 0 then { p with total_points := 0 } else { p with total_points := t }

/-- A sequence of point adjustments applied one call at a time. -/
def applyAdjustments (p : Participant) (l : List ℚ) : Participant :=
  l.foldl (fun q d => q.add_points d) p

lemma add_points_total (p : Participant) (d : ℚ) :
    (p.add_points d).total_points = max 0 (p.total_points + d) := by
  unfold Participant.add_points
  by_cases h : p.total_points + d < 0 <;> simp [h]
  · exact h.le
  · exact not_lt.mp h

/-- **C2**: every single `add_points` call clamps step-wise: the new
`total_points` is `max 0 (previous + adjustment)`, hence after every
individual adjustment of any sequence the total is `≥ 0`. -/
theorem add_points_stepwise_clamp (p : Participant) (l : List ℚ) (d : ℚ) :
    (applyAdjustments p (l ++ [d])).total_points
        = max 0 ((applyAdjustments p l).total_points + d) ∧
      0 ≤ (applyAdjustments p (l ++ [d])).total_points := by
  constructor
  · simp [applyAdjustments, List.foldl_append, add_points_total]
  · simp [applyAdjustments, List.foldl_append, add_points_total]

/-- Stable insert used to model Python's `sorted(..., key=total_points,
reverse=True)`: a participant is placed before the first entry whose
score is not above its own, so earlier roster entries stay first on
ties. -/
def insertByPointsDesc (p : Participant) : List Participant → List Participant
  | [] => [p]
  | q :: qs =>
    if q.total_points ≤ p.total_points then p :: q :: qs
    else q :: insertByPointsDesc p qs

/-- `Competition.get_final_leaderboard`: all participants sorted by
`total_points` descending. -/
def get_final_leaderboard (participants : List Participant) : List Participant :=
  participants.foldr insertByPointsDesc []

/-- The descending-score ordering of the final leaderboard. -/
def pointsGE (a b : Participant) : Prop := b.total_points ≤ a.total_points

instance : DecidableRel pointsGE := fun a b => by
  unfold pointsGE; infer_instance

lemma insertByPointsDesc_perm (p : Participant) (l : List Participant) :
    List.Perm (insertByPointsDesc p l) (p :: l) := by
  induction l with
  | nil => rfl
  | cons q qs ih =>
    unfold insertByPointsDesc
    split
    · rfl
    · exact (ih.cons q).trans (List.Perm.swap p q qs)

lemma get_final_leaderboard_perm (ps : List Participant) :
    List.Perm (get_final_leaderboard ps) ps := by
  induction ps with
  | nil => rfl
  | cons p qs ih =>
    exact (insertByPointsDesc_perm p _).trans (ih.cons p)

lemma insertByPointsDesc_sorted {l : List Participant} (p : Participant)
    (h : l.Sorted pointsGE) : (insertByPointsDesc p l).Sorted pointsGE := by
  induction l with
  | nil => simp [insertByPointsDesc, List.Sorted]
  | cons q qs ih =>
    rw [List.sorted_cons] at h
    unfold insertByPointsDesc
    split <;> rename_i hq
    · rw [List.sorted_cons]
      refine ⟨?_, List.sorted_cons.mpr h⟩
      intro b hb
      rcases List.mem_cons.mp hb with rfl | hb
      · exact hq
      · exact le_trans (h.1 b hb) hq
    · rw [List.sorted_cons]
      refine ⟨?_, ih h.2⟩
      intro b hb
      rcases List.mem_cons.mp ((insertByPointsDesc_perm p qs).mem_iff.mp hb)
        with rfl | hb
      · exact (le_of_lt (lt_of_not_le hq))
      · exact h.1 b hb

lemma get_final_leaderboard_sorted (ps : List Participant) :
    (get_final_leaderboard ps).Sorted pointsGE := by
  induction ps with
  | nil => simp [get_final_leaderboard, List.Sorted]
  | cons p qs ih =>
    exact insertByPointsDesc_sorted p ih

/-- The placeholder participant used for guarded list indexing. -/
def defaultParticipant : Participant := ⟨0, "", 0, 0⟩

/-- `Competition.evaluate_cut_off_collision`: size of the score tie
spanning final ranks 6 and 7 (0-indexed 5 and 6). -/
def evaluate_cut_off_collision (participants : List Participant) : ℕ :=
  let final_board := get_final_leaderboard participants
  let num_participants := final_board.length
  if num_participants < 7 then 0
  else
    let score_6th := (final_board.getD 5 defaultParticipant).total_points
    let score_7th := (final_board.getD 6 defaultParticipant).total_points
    if score_7th < score_6th then 0
    else
      let collision_score := score_6th
      final_board.countP (fun p => decide (p.total_points = collision_score))

lemma leaderboard_rank6_le_rank5 (ps : List Participant)
    (h7 : 7 ≤ (get_final_leaderboard ps).length) :
    ((get_final_leaderboard ps).getD 6 defaultParticipant).total_points ≤
      ((get_final_leaderboard ps).getD 5 defaultParticipant).total_points := by
  have h5 : 5 < (get_final_leaderboard ps).length := by omega
  have h6 : 6 < (get_final_leaderboard ps).length := by omega
  rw [List.getD_eq_getElem _ _ h5, List.getD_eq_getElem _ _ h6]
  have h := (get_final_leaderboard_sorted ps).rel_get_of_lt
    (a := ⟨5, h5⟩) (b := ⟨6, h6⟩) (by simp)
  simpa [pointsGE, List.get_eq_getElem] using h

/-- **C5**: a roster of fewer than 7 competitors yields collision size 0;
with at least 7, a strict gap between the final scores at 0-indexed
ranks 5 and 6 yields 0, and otherwise the result counts every
competitor in the roster whose final score equals the rank-5 score. -/
theorem evaluate_cut_off_collision_cases (participants : List Participant) :
    (participants.length < 7 → evaluate_cut_off_collision participants = 0) ∧
    (7 ≤ participants.length →
      (((get_final_leaderboard participants).getD 6 defaultParticipant).total_points <
          ((get_final_leaderboard participants).getD 5 defaultParticipant).total_points →
        evaluate_cut_off_collision participants = 0) ∧
      (¬ ((get_final_leaderboard participants).getD 6 defaultParticipant).total_points <
          ((get_final_leaderboard participants).getD 5 defaultParticipant).total_points →
        evaluate_cut_off_collision participants =
          participants.countP (fun p => decide (p.total_points =
            ((get_final_leaderboard participants).getD 5
              defaultParticipant).total_points)))) := by
  have hlen : (get_final_leaderboard participants).length = participants.length :=
    (get_final_leaderboard_perm participants).length_eq
  refine ⟨fun h => ?_, fun h => ⟨fun hgt => ?_, fun hle => ?_⟩⟩
  · simp only [evaluate_cut_off_collision]
    rw [if_pos (by omega)]
  · simp only [evaluate_cut_off_collision]
    rw [if_neg (by omega), if_pos hgt]
  · simp only [evaluate_cut_off_collision]
    rw [if_neg (by omega), if_neg hle]
    exact (get_final_leaderboard_perm participants).countP_eq _

/-- **C10**: `evaluate_cut_off_collision` never returns 1: because the
final leaderboard is sorted descending, whenever the rank-5 score is
not strictly above the rank-6 score the two are equal and at least
those two entries are counted. -/
theorem evaluate_cut_off_collision_ne_one (participants : List Participant) :
    evaluate_cut_off_collision participants = 0 ∨
      2 ≤ evaluate_cut_off_collision participants := by
  by_cases hlen : (get_final_leaderboard participants).length < 7
  · left
    simp only [evaluate_cut_off_collision]
    rw [if_pos hlen]
  by_cases hcond : ((get_final_leaderboard participants).getD 6
        defaultParticipant).total_points <
      ((get_final_leaderboard participants).getD 5 defaultParticipant).total_points
  · left
    simp only [evaluate_cut_off_collision]
    rw [if_neg hlen, if_pos hcond]
  · right
    have h5 : 5 < (get_final_leaderboard participants).length := by omega
    have h6 : 6 < (get_final_leaderboard participants).length := by omega
    have heq : ((get_final_leaderboard participants).getD 6
          defaultParticipant).total_points =
        ((get_final_leaderboard participants).getD 5 defaultParticipant).total_points :=
      le_antisymm (leaderboard_rank6_le_rank5 _ (by omega)) (not_lt.mp hcond)
    simp only [evaluate_cut_off_collision]
    rw [if_neg hlen, if_neg hcond]
    have hdrop : (get_final_leaderboard participants).drop 5 =
        (get_final_leaderboard participants)[5] ::
          (get_final_leaderboard participants)[6] ::
            (get_final_leaderboard participants).drop 7 := by
      rw [List.drop_eq_getElem_cons h5, List.drop_eq_getElem_cons h6]
    have hsub := (List.drop_sublist 5 (get_final_leaderboard participants)).countP_le
      (p := fun p => decide (p.total_points =
        ((get_final_leaderboard participants).getD 5 defaultParticipant).total_points))
    refine le_trans ?_ hsub
    rw [hdrop, List.countP_cons_of_pos, List.countP_cons_of_pos]
    · omega
    · rw [List.getD_eq_getElem _ _ h5, List.getD_eq_getElem _ _ h6] at heq
      simp only [List.getD_eq_getElem _ _ h5, decide_eq_true_eq]
      exact heq
    · simp only [List.getD_eq_getElem _ _ h5, decide_eq_true_eq]

/-- A concrete 7-competitor roster with a score tie across the cutoff. -/
def roster7 : List Participant :=
  [⟨1, "P1", 0, 9⟩, ⟨2, "P2", 0, 8⟩, ⟨3, "P3", 0, 7⟩, ⟨4, "P4", 0, 6⟩,
   ⟨5, "P5", 0, 5⟩, ⟨6, "P6", 0, 1⟩, ⟨7, "P7", 0, 1⟩]

/-- Witness for C5 at a concrete tied roster. -/
theorem evaluate_cut_off_collision_cases_witness :
    evaluate_cut_off_collision roster7 = 2 :=
  (((evaluate_cut_off_collision_cases roster7).2 (by decide)).2 (by decide)).trans
    (by decide)

/-- The team index the snake draft picks for 0-indexed rank position
`i` (`Competition.determine_teams`): `i % 3`, mirrored to `2 - i % 3`
when the row index `i / 3` is odd. -/
def snakeTeamIndex (i : ℕ) : ℕ :=
  if (i / 3) % 2 = 1 then 2 - i % 3 else i % 3

/-- One step of the draft loop: append participant `x.2`, drafted at
rank position `x.1`, to the team `snakeTeamIndex` picks. -/
def draftStep {α : Type} (teams : List (List α)) (x : ℕ × α) : List (List α) :=
  teams.set (snakeTeamIndex x.1) (teams.getD (snakeTeamIndex x.1) [] ++ [x.2])

/-- The draft loop of `Competition.determine_teams`: walk the ranked
list and run `draftStep` for every enumerated participant, starting
from three empty teams. -/
def determine_teams {α : Type} (sorted_participants : List α) : List (List α) :=
  sorted_participants.enum.foldl draftStep [[], [], []]

lemma snakeTeamIndex_lt (i : ℕ) : snakeTeamIndex i < 3 := by
  unfold snakeTeamIndex
  split <;> omega

lemma determine_teams_foldl {α : Type} (l : List (ℕ × α)) (b0 b1 b2 : List α) :
    l.foldl draftStep [b0, b1, b2] =
      [b0 ++ (l.filter (fun x => snakeTeamIndex x.1 == 0)).map Prod.snd,
       b1 ++ (l.filter (fun x => snakeTeamIndex x.1 == 1)).map Prod.snd,
       b2 ++ (l.filter (fun x => snakeTeamIndex x.1 == 2)).map Prod.snd] := by
  induction l generalizing b0 b1 b2 with
  | nil => simp
  | cons x xs ih =>
    have h3 := snakeTeamIndex_lt x.1
    have hcase : snakeTeamIndex x.1 = 0 ∨ snakeTeamIndex x.1 = 1 ∨
        snakeTeamIndex x.1 = 2 := by omega
    rcases hcase with h | h | h
    · rw [List.foldl_cons, show draftStep [b0, b1, b2] x = [b0 ++ [x.2], b1, b2]
        from by simp [draftStep, h], ih]
      simp [List.filter_cons, h]
    · rw [List.foldl_cons, show draftStep [b0, b1, b2] x = [b0, b1 ++ [x.2], b2]
        from by simp [draftStep, h], ih]
      simp [List.filter_cons, h]
    · rw [List.foldl_cons, show draftStep [b0, b1, b2] x = [b0, b1, b2 ++ [x.2]]
        from by simp [draftStep, h], ih]
      simp [List.filter_cons, h]

lemma count_snake_range (t k : ℕ) (ht : t < 3) :
    ∀ j, ((List.range' (3 * j) (3 * k)).filter
      (fun i => snakeTeamIndex i == t)).length = k := by
  induction k with
  | zero => simp
  | succ k ih =>
    intro j
    rw [show 3 * (k + 1) = 3 * k + 1 + 1 + 1 by ring]
    rw [List.range'_succ, List.range'_succ, List.range'_succ]
    rw [show 3 * j + 1 + 1 + 1 = 3 * (j + 1) by ring]
    have hp : j % 2 = 0 ∨ j % 2 = 1 := Nat.mod_two_eq_zero_or_one j
    rcases hp with hj | hj
    · have e0 : snakeTeamIndex (3 * j) = 0 := by
        unfold snakeTeamIndex; split <;> omega
      have e1 : snakeTeamIndex (3 * j + 1) = 1 := by
        unfold snakeTeamIndex; split <;> omega
      have e2 : snakeTeamIndex (3 * j + 1 + 1) = 2 := by
        unfold snakeTeamIndex; split <;> omega
      interval_cases t <;>
        simp [List.filter_cons, e0, e1, e2, ih (j + 1)]
    · have e0 : snakeTeamIndex (3 * j) = 2 := by
        unfold snakeTeamIndex; split <;> omega
      have e1 : snakeTeamIndex (3 * j + 1) = 1 := by
        unfold snakeTeamIndex; split <;> omega
      have e2 : snakeTeamIndex (3 * j + 1 + 1) = 0 := by
        unfold snakeTeamIndex; split <;> omega
      interval_cases t <;>
        simp [List.filter_cons, e0, e1, e2, ih (j + 1)]

lemma filter_fst_zip_length {α : Type} (p : ℕ → Bool) :
    ∀ (ns : List ℕ) (ps : List α), ns.length = ps.length →
      ((ns.zip ps).filter (fun x => p x.1)).length = (ns.filter p).length := by
  intro ns
  induction ns with
  | nil => simp
  | cons n ns ih =>
    intro ps hlen
    cases ps with
    | nil => simp at hlen
    | cons q qs =>
      simp only [List.zip_cons_cons, List.filter_cons]
      by_cases h : p n <;>
        simp [h, ih qs (by simpa using hlen)]

lemma perm_three_buckets {β : Type} (f : β → ℕ) (hf : ∀ b, f b < 3)
    (l : List β) :
    List.Perm (l.filter (fun b => f b == 0) ++ (l.filter (fun b => f b == 1) ++
      l.filter (fun b => f b == 2))) l := by
  induction l with
  | nil => simp
  | cons x xs ih =>
    have h3 := hf x
    have hcase : f x = 0 ∨ f x = 1 ∨ f x = 2 := by omega
    rcases hcase with h | h | h <;> simp only [List.filter_cons, h] <;> simp
    · exact ih
    · exact List.perm_middle.trans (ih.cons x)
    · refine ((List.Perm.append_left _ List.perm_middle).trans ?_)
      exact List.perm_middle.trans (ih.cons x)

/-- **C4**: for a ranked roster of size `3 * k`, the snake draft yields
exactly 3 teams; team `t` consists, in rank order, of exactly the
competitors at 0-indexed positions `i` with team index `i % 3`,
mirrored to `2 - i % 3` on odd rows `i / 3`; each team has `k`
members; and the three teams together are a permutation of the roster,
so every competitor is assigned exactly once. -/
theorem determine_teams_spec {α : Type} (sorted_participants : List α) (k : ℕ)
    (hlen : sorted_participants.length = 3 * k) :
    (determine_teams sorted_participants).length = 3 ∧
    (∀ t, t < 3 →
      (determine_teams sorted_participants).getD t [] =
        ((sorted_participants.enum.filter (fun x =>
          (if (x.1 / 3) % 2 = 1 then 2 - x.1 % 3 else x.1 % 3) == t)).map
            Prod.snd)) ∧
    (∀ t, t < 3 →
      ((determine_teams sorted_participants).getD t []).length = k) ∧
    List.Perm (determine_teams sorted_participants).flatten
      sorted_participants := by
  have hdt : determine_teams sorted_participants =
      [(sorted_participants.enum.filter
          (fun x => snakeTeamIndex x.1 == 0)).map Prod.snd,
       (sorted_participants.enum.filter
          (fun x => snakeTeamIndex x.1 == 1)).map Prod.snd,
       (sorted_participants.enum.filter
          (fun x => snakeTeamIndex x.1 == 2)).map Prod.snd] := by
    unfold determine_teams
    rw [determine_teams_foldl]
    simp
  have hteamlen : ∀ t, t < 3 →
      ((sorted_participants.enum.filter
        (fun x => snakeTeamIndex x.1 == t)).map Prod.snd).length = k := by
    intro t ht
    rw [List.length_map]
    have hzip : sorted_participants.enum =
        (List.range' 0 sorted_participants.length).zip sorted_participants := by
      rw [List.enum_eq_enumFrom, List.enumFrom_eq_zip_range']
    rw [hzip, filter_fst_zip_length (fun i => snakeTeamIndex i == t)
      (List.range' 0 sorted_participants.length) sorted_participants (by simp)]
    have hcount := count_snake_range t k ht 0
    simpa [hlen] using hcount
  refine ⟨by rw [hdt]; rfl, ?_, ?_, ?_⟩
  · intro t ht
    interval_cases t
    · rw [hdt]; rfl
    · rw [hdt]; rfl
    · rw [hdt]; rfl
  · intro t ht
    interval_cases t
    · rw [hdt]; exact hteamlen 0 (by omega)
    · rw [hdt]; exact hteamlen 1 (by omega)
    · rw [hdt]; exact hteamlen 2 (by omega)
  · rw [hdt]
    have hperm := (perm_three_buckets (fun x => snakeTeamIndex x.1)
      (fun x => snakeTeamIndex_lt x.1) sorted_participants.enum).map Prod.snd
    simp only [List.map_append] at hperm
    have hsnd : sorted_participants.enum.map Prod.snd = sorted_participants := by
      rw [List.enum_eq_enumFrom]
      exact List.enumFrom_map_snd 0 sorted_participants
    rw [hsnd] at hperm
    simpa using hperm

/-- Witness for C4 on the 6-element ranked roster `0 > 1 > ... > 5`:
the snake draft pairs first with last. -/
theorem determine_teams_spec_witness :
    (determine_teams [0, 1, 2, 3, 4, 5]).getD 0 [] = [0, 5] ∧
      ((determine_teams [0, 1, 2, 3, 4, 5]).getD 1 []).length = 2 :=
  ⟨((determine_teams_spec [0, 1, 2, 3, 4, 5] 2 rfl).2.1 0 (by decide)).trans
      (by decide),
    (determine_teams_spec [0, 1, 2, 3, 4, 5] 2 rfl).2.2.1 1 (by decide)⟩

/-- The dict `{p.id: p.total_points for p in leaderboard}`: built in
insertion order so later entries overwrite earlier ones, read with a
default of 0 for absent ids (`.get(id, 0)`). -/
def buildScoreMap (leaderboard : List Participant) : ℕ → ℚ :=
  leaderboard.foldl
    (fun m p => fun j => if j = p.id then p.total_points else m j)
    (fun _ => 0)

/-- The stage-5 capture in `Competition.simulate_stage`: read the
current scores off a dict keyed by id from the sorted leaderboard,
then build a fresh list of `Participant` copies by walking
`self.participants` in roster order. -/
def take_stage5_snapshot (participants : List Participant) : List Participant :=
  let leaderboard := get_final_leaderboard participants
  let current_leaderboard_points := buildScoreMap leaderboard
  participants.map (fun p =>
    { id := p.id, name := p.name, initial_skill := p.initial_skill,
      total_points := current_leaderboard_points p.id })

/-- `Competition.__init__`: `max_stage_points = Y + Z + C`, the most a
single player can earn in one stage. -/
def max_stage_points (Y Z C : ℚ) : ℚ := Y + Z + C

/-- `Competition.evaluate_final_contenders`: count current competitors
whose stage-5 score (by id, default 0) plus the stage ceiling reaches
the score of the snapshot's entry at index 5. -/
def evaluate_final_contenders (participants : List Participant)
    (stage_5_leaderboard : Option (List Participant))
    (max_stage_points : ℚ) : ℕ :=
  match stage_5_leaderboard with
  | none => 0
  | some leaderboard =>
    if leaderboard.length < 6 then 0
    else
      let score_6th := (leaderboard.getD 5 defaultParticipant).total_points
      let stage_5_score_map := buildScoreMap leaderboard
      participants.countP (fun participant =>
        decide (score_6th ≤ stage_5_score_map participant.id + max_stage_points))

/-- Modelled from the spec: the C1 claim's target, "the stage-5
snapshot's rank-6 score (the 6th-highest stage-5 total)", i.e. the
score at 0-indexed rank 5 of the snapshot sorted descending. -/
def rank6ScoreSpec (snapshot : List Participant) : ℚ :=
  ((get_final_leaderboard snapshot).getD 5 defaultParticipant).total_points

/-- Modelled from the spec: the contender count C1 describes, counting
against the 6th-highest stage-5 total. -/
def contendersPerSpec (participants snapshot : List Participant)
    (msp : ℚ) : ℕ :=
  participants.countP (fun p =>
    decide (rank6ScoreSpec snapshot ≤ buildScoreMap snapshot p.id + msp))

/-- A reachable stage-5 state whose roster order is not score order:
roster-order points are 10, 0, 9, 8, 7, 6. -/
def rosterC1 : List Participant :=
  [⟨1, "R1", 100, 10⟩, ⟨2, "R2", 90, 0⟩, ⟨3, "R3", 80, 9⟩,
   ⟨4, "R4", 70, 8⟩, ⟨5, "R5", 60, 7⟩, ⟨6, "R6", 50, 6⟩]

/-- **C1** (code bug): the snapshot is built in roster order, so
`evaluate_final_contenders` compares against the snapshot's 6th entry
in roster order (score 6 here), not the 6th-highest stage-5 total
(score 0 here) that its own comments and the spec describe: with
stage ceiling 1 it returns 5, while the described count is 6. -/
theorem evaluate_final_contenders_roster_order_bug :
    evaluate_final_contenders rosterC1 (some (take_stage5_snapshot rosterC1))
        (max_stage_points 1 0 0) = 5 ∧
      contendersPerSpec rosterC1 (take_stage5_snapshot rosterC1)
        (max_stage_points 1 0 0) = 6 ∧
      rank6ScoreSpec (take_stage5_snapshot rosterC1) = 0 ∧
      ((take_stage5_snapshot rosterC1).getD 5 defaultParticipant).total_points
        = 6 := by
  refine ⟨?_, ?_, ?_, ?_⟩ <;>
    norm_num [evaluate_final_contenders, contendersPerSpec, rank6ScoreSpec,
      take_stage5_snapshot, buildScoreMap, get_final_leaderboard,
      insertByPointsDesc, rosterC1, max_stage_points, defaultParticipant,
      List.countP_cons, List.countP_nil, List.foldr_cons, List.foldr_nil,
      List.foldl_cons, List.foldl_nil]

/-- Python's `range(lo, hi + 1)`: the inclusive integer range. -/
def rangeIncl (lo hi : ℤ) : List ℤ :=
  (List.range (hi + 1 - lo).toNat).map (fun (n : ℕ) => lo + (n : ℤ))

lemma mem_rangeIncl {lo hi a : ℤ} : a ∈ rangeIncl lo hi ↔ lo ≤ a ∧ a ≤ hi := by
  unfold rangeIncl
  rw [List.mem_map]
  constructor
  · rintro ⟨n, hn, rfl⟩
    rw [List.mem_range] at hn
    omega
  · intro h
    refine ⟨(a - lo).toNat, ?_, ?_⟩
    · rw [List.mem_range]
      omega
    · omega

/-- The nested loops of `run_optimization_sweep`: every `(C, Z, X, Y)`
within the inclusive bounds, skipping (`continue`) when `Z ≥ X` or
`X ≥ Y`; the `C ≥ Z` skip is commented out in the source.  Yields, in
loop order, exactly the tuples `run_parameter_test` is called on. -/
def sweepTuples (X_bounds Y_bounds Z_bounds C_bounds : ℤ × ℤ) :
    List (ℤ × ℤ × ℤ × ℤ) :=
  (rangeIncl C_bounds.1 C_bounds.2).flatMap fun C =>
    (rangeIncl Z_bounds.1 Z_bounds.2).flatMap fun Z =>
      (rangeIncl X_bounds.1 X_bounds.2).flatMap fun X =>
        if Z ≥ X then []
        else
          (rangeIncl Y_bounds.1 Y_bounds.2).flatMap fun Y =>
            if X ≥ Y then [] else [(X, Y, Z, C)]

/-- **C7**: the sweep runs a simulation for `(X, Y, Z, C)` iff the
tuple lies within the configured inclusive bounds and `Z < X < Y`;
out-of-order tuples are silently dropped before any run, and no
constraint between `C` and `Z` is imposed. -/
theorem sweepTuples_mem (X_bounds Y_bounds Z_bounds C_bounds : ℤ × ℤ)
    (X Y Z C : ℤ) :
    (X, Y, Z, C) ∈ sweepTuples X_bounds Y_bounds Z_bounds C_bounds ↔
      (X_bounds.1 ≤ X ∧ X ≤ X_bounds.2) ∧ (Y_bounds.1 ≤ Y ∧ Y ≤ Y_bounds.2) ∧
      (Z_bounds.1 ≤ Z ∧ Z ≤ Z_bounds.2) ∧ (C_bounds.1 ≤ C ∧ C ≤ C_bounds.2) ∧
      Z < X ∧ X < Y := by
  simp only [sweepTuples, List.mem_flatMap, mem_rangeIncl]
  constructor
  · rintro ⟨C', hC, Z', hZ, X', hX, hmem⟩
    by_cases h1 : Z' ≥ X'
    · rw [if_pos h1] at hmem
      simp at hmem
    · rw [if_neg h1] at hmem
      simp only [List.mem_flatMap, mem_rangeIncl] at hmem
      obtain ⟨Y', hY, hm2⟩ := hmem
      by_cases h2 : X' ≥ Y'
      · rw [if_pos h2] at hm2
        simp at hm2
      · rw [if_neg h2] at hm2
        simp only [List.mem_singleton, Prod.mk.injEq] at hm2
        obtain ⟨rfl, rfl, rfl, rfl⟩ := hm2
        refine ⟨⟨hX.1, hX.2⟩, ⟨hY.1, hY.2⟩, ⟨hZ.1, hZ.2⟩, ⟨hC.1, hC.2⟩, ?_, ?_⟩ <;>
          omega
  · rintro ⟨hX, hY, hZ, hC, hZX, hXY⟩
    refine ⟨C, hC, Z, hZ, X, hX, ?_⟩
    rw [if_neg (by omega)]
    simp only [List.mem_flatMap, mem_rangeIncl]
    refine ⟨Y, hY, ?_⟩
    rw [if_neg (by omega)]
    simp

/-- The fields of one `Participant` object on the heap; the heap
address plays the role of the Python object identity. -/
structure PData where
  id : ℕ
  name : String
  initial_skill : ℚ
  total_points : ℚ

/-- A heap of `Participant` objects addressed by naturals. -/
def Heap : Type := ℕ → PData

/-- `Participant.add_points` acting in place on the object at address
`a`: every alias of `a` sees the update, no other cell changes. -/
def heapAddPoints (h : Heap) (a : ℕ) (points : ℚ) : Heap :=
  fun b =>
    if b = a then
      let t := (h a).total_points + points
      if t < 0 then { h a with total_points := 0 }
      else { h a with total_points := t }
    else h b

lemma heapAddPoints_same (h : Heap) (a : ℕ) (d : ℚ) :
    (heapAddPoints h a d) a =
      { h a with total_points := max 0 ((h a).total_points + d) } := by
  unfold heapAddPoints
  by_cases hc : (h a).total_points + d < 0
  · simp [hc, max_eq_left hc.le]
  · simp [hc, max_eq_right (not_lt.mp hc)]

lemma heapAddPoints_other (h : Heap) (a b : ℕ) (d : ℚ) (hb : b ≠ a) :
    (heapAddPoints h a d) b = h b := by
  unfold heapAddPoints
  simp only [if_neg hb]

/-- Sum of `initial_skill` over a team of object addresses
(`sum(p.initial_skill for p in team)`). -/
def team_skill_sum (h : Heap) (team : List ℕ) : ℚ :=
  (team.map (fun a => (h a).initial_skill)).sum

/-- Python's `max(..., key=lambda item: item[0])`: walk the list and
replace the current best only on a strictly larger key, so the first
maximal element wins ties. -/
def maxByFirst {α : Type} : List (ℚ × α) → Option (ℚ × α)
  | [] => none
  | x :: xs => some (xs.foldl (fun best y => if best.1 < y.1 then y else best) x)

/-- `ChallengeSimulator.determine_team_winner`; the `i`-th team's
`random.uniform(0, max_skill_sum)` value is supplied as `draws i`. -/
def determine_team_winner (challenge_randomness : ℚ) (h : Heap)
    (teams : List (List ℕ)) (draws : ℕ → ℚ) : Option (List ℕ) :=
  let team_scores := teams.enum.map (fun x =>
    ((1 - challenge_randomness) * team_skill_sum h x.2
        + challenge_randomness * draws x.1, x.2))
  (maxByFirst team_scores).map Prod.snd

/-- `ChallengeSimulator.determine_individual_winner`; the `i`-th
representative's draw is supplied as `draws i`. -/
def determine_individual_winner (challenge_randomness : ℚ) (h : Heap)
    (representatives : List ℕ) (draws : ℕ → ℚ) : Option ℕ :=
  let individual_scores := representatives.enum.map (fun x =>
    ((1 - challenge_randomness) * (h x.2).initial_skill
        + challenge_randomness * draws x.1, x.2))
  (maxByFirst individual_scores).map Prod.snd

/-- `ChallengeSimulator.select_team_representative`; the `j`-th
member's draw is supplied as `draws j`. -/
def select_team_representative (rep_selection_randomness : ℚ) (h : Heap)
    (team : List ℕ) (draws : ℕ → ℚ) : Option ℕ :=
  let selection_scores := team.enum.map (fun x =>
    ((1 - rep_selection_randomness) * (h x.2).initial_skill
        + rep_selection_randomness * draws x.1, x.2))
  (maxByFirst selection_scores).map Prod.snd

lemma foldl_max_mem {α : Type} :
    ∀ (xs : List (ℚ × α)) (x : ℚ × α),
      xs.foldl (fun best y => if best.1 < y.1 then y else best) x ∈ x :: xs := by
  intro xs
  induction xs with
  | nil => intro x; exact List.mem_singleton.mpr rfl
  | cons y ys ih =>
    intro x
    rw [List.foldl_cons]
    have hmem := ih (if x.1 < y.1 then y else x)
    rcases List.mem_cons.mp hmem with he | hm
    · rw [he]
      by_cases hxy : x.1 < y.1
      · rw [if_pos hxy]
        exact List.mem_cons_of_mem x (List.mem_cons_self y ys)
      · rw [if_neg hxy]
        exact List.mem_cons_self x (y :: ys)
    · exact List.mem_cons_of_mem x (List.mem_cons_of_mem y hm)

lemma maxByFirst_mem {α : Type} {l : List (ℚ × α)} {m : ℚ × α}
    (hm : maxByFirst l = some m) : m ∈ l := by
  cases l with
  | nil => cases hm
  | cons x xs =>
    unfold maxByFirst at hm
    have hfold := foldl_max_mem xs x
    rw [Option.some_inj] at hm
    rwa [hm] at hfold

lemma foldl_max_eq_of_strict {α : Type} (m : ℚ × α) :
    ∀ (xs : List (ℚ × α)) (x : ℚ × α), m ∈ x :: xs →
      (∀ p ∈ x :: xs, p ≠ m → p.1 < m.1) →
      xs.foldl (fun best y => if best.1 < y.1 then y else best) x = m := by
  intro xs
  induction xs with
  | nil =>
    intro x hmem _
    rcases List.mem_cons.mp hmem with rfl | hm
    · rfl
    · cases hm
  | cons y ys ih =>
    intro x hmem hlt
    rw [List.foldl_cons]
    apply ih
    · rcases List.mem_cons.mp hmem with rfl | hm
      · by_cases hxy : m.1 < y.1
        · rw [if_pos hxy]
          by_cases hym : y = m
          · rw [hym]
            exact List.mem_cons_self m ys
          · exact absurd hxy (not_lt.mpr
              (hlt y (List.mem_cons_of_mem m (List.mem_cons_self y ys)) hym).le)
        · rw [if_neg hxy]
          exact List.mem_cons_self m ys
      · rcases List.mem_cons.mp hm with rfl | hm2
        · by_cases hxy : x.1 < m.1
          · rw [if_pos hxy]
            exact List.mem_cons_self m ys
          · by_cases hxm : x = m
            · rw [if_neg hxy, hxm]
              exact List.mem_cons_self m ys
            · exact absurd (hlt x (List.mem_cons_self x (m :: ys)) hxm) hxy
        · exact List.mem_cons_of_mem _ hm2
    · intro p hp hpm
      apply hlt p _ hpm
      rcases List.mem_cons.mp hp with rfl | hp2
      · by_cases hxy : x.1 < y.1
        · rw [if_pos hxy]
          exact List.mem_cons_of_mem x (List.mem_cons_self y ys)
        · rw [if_neg hxy]
          exact List.mem_cons_self x (y :: ys)
      · exact List.mem_cons_of_mem x (List.mem_cons_of_mem y hp2)

lemma maxByFirst_strict_max {α : Type} {l : List (ℚ × α)} {m : ℚ × α}
    (hm : m ∈ l) (hlt : ∀ p ∈ l, p ≠ m → p.1 < m.1) :
    maxByFirst l = some m := by
  cases l with
  | nil => cases hm
  | cons x xs =>
    unfold maxByFirst
    rw [Option.some_inj]
    apply foldl_max_eq_of_strict
    · exact hm
    · exact fun p hp hpm => hlt p hp hpm

/-- **C6**: with randomness weight 0 the resolvers are deterministic:
for every possible outcome of the draws, the team with the strictly
largest skill sum wins, and the representative with the strictly
largest skill wins. -/
theorem resolver_deterministic_at_zero (h : Heap) :
    (∀ (teams : List (List ℕ)) (t : List ℕ), t ∈ teams →
      (∀ u ∈ teams, u ≠ t → team_skill_sum h u < team_skill_sum h t) →
      ∀ draws : ℕ → ℚ, determine_team_winner 0 h teams draws = some t) ∧
    (∀ (reps : List ℕ) (r : ℕ), r ∈ reps →
      (∀ u ∈ reps, u ≠ r → (h u).initial_skill < (h r).initial_skill) →
      ∀ draws : ℕ → ℚ, determine_individual_winner 0 h reps draws = some r) := by
  constructor
  · intro teams t ht hmax draws
    simp only [determine_team_winner]
    have hfun : (fun (x : ℕ × List ℕ) =>
        ((1 - 0) * team_skill_sum h x.2 + 0 * draws x.1, x.2)) =
        fun (x : ℕ × List ℕ) => (team_skill_sum h x.2, x.2) := by
      funext x
      norm_num
    rw [hfun]
    have ht' : t ∈ teams.enum.map Prod.snd := by
      rw [List.enum_eq_enumFrom, List.enumFrom_map_snd]
      exact ht
    obtain ⟨x, hx, hxt⟩ := List.mem_map.mp ht'
    have hmm : maxByFirst (teams.enum.map
        (fun (x : ℕ × List ℕ) => (team_skill_sum h x.2, x.2))) =
        some (team_skill_sum h t, t) := by
      apply maxByFirst_strict_max
      · exact List.mem_map.mpr ⟨x, hx, by rw [hxt]⟩
      · intro p hp hpm
        obtain ⟨x', hx', rfl⟩ := List.mem_map.mp hp
        have hu : x'.2 ∈ teams := by
          rw [← List.enumFrom_map_snd 0 teams, ← List.enum_eq_enumFrom]
          exact List.mem_map_of_mem Prod.snd hx'
        by_cases hut : x'.2 = t
        · exact absurd (by rw [hut]) hpm
        · exact hmax x'.2 hu hut
    rw [hmm]
    rfl
  · intro reps r hr hmax draws
    simp only [determine_individual_winner]
    have hfun : (fun (x : ℕ × ℕ) =>
        ((1 - 0) * (h x.2).initial_skill + 0 * draws x.1, x.2)) =
        fun (x : ℕ × ℕ) => ((h x.2).initial_skill, x.2) := by
      funext x
      norm_num
    rw [hfun]
    have hr' : r ∈ reps.enum.map Prod.snd := by
      rw [List.enum_eq_enumFrom, List.enumFrom_map_snd]
      exact hr
    obtain ⟨x, hx, hxt⟩ := List.mem_map.mp hr'
    have hmm : maxByFirst (reps.enum.map
        (fun (x : ℕ × ℕ) => ((h x.2).initial_skill, x.2))) =
        some ((h r).initial_skill, r) := by
      apply maxByFirst_strict_max
      · exact List.mem_map.mpr ⟨x, hx, by rw [hxt]⟩
      · intro p hp hpm
        obtain ⟨x', hx', rfl⟩ := List.mem_map.mp hp
        have hu : x'.2 ∈ reps := by
          rw [← List.enumFrom_map_snd 0 reps, ← List.enum_eq_enumFrom]
          exact List.mem_map_of_mem Prod.snd hx'
        by_cases hut : x'.2 = r
        · exact absurd (by rw [hut]) hpm
        · exact hmax x'.2 hu hut
    rw [hmm]
    rfl

/-- A small concrete heap: address `a` holds skill `a`. -/
def heapW : Heap := fun a => ⟨a, "W", (a : ℚ), 0⟩

/-- Witness for C6: on two one-member teams of skills 0 and 1, the
resolver at randomness 0 picks the skill-1 team whatever the draw. -/
theorem resolver_deterministic_at_zero_witness :
    determine_team_winner 0 heapW [[0], [1]] (fun _ => 5) = some [1] := by
  apply (resolver_deterministic_at_zero heapW).1 [[0], [1]] [1] (by decide)
  intro u hu hut
  rcases List.mem_cons.mp hu with rfl | hu2
  · norm_num [team_skill_sum, heapW]
  · rcases List.mem_cons.mp hu2 with rfl | hu3
    · exact absurd rfl hut
    · cases hu3

lemma mapM_option_forall₂ {α β : Type} (f : α → Option β) :
    ∀ (l : List α) (res : List β), l.mapM f = some res →
      List.Forall₂ (fun a b => f a = some b) l res := by
  intro l
  induction l with
  | nil =>
    intro res hres
    rw [List.mapM_nil] at hres
    cases hres
    exact List.Forall₂.nil
  | cons x xs ih =>
    intro res hres
    rw [List.mapM_cons] at hres
    cases hf : f x with
    | none => rw [hf] at hres; cases hres
    | some y =>
      rw [hf] at hres
      cases hm : xs.mapM f with
      | none => rw [hm] at hres; cases hres
      | some ys =>
        rw [hm] at hres
        simp only [Option.bind_some, Option.pure_def, Option.some_inj] at hres
        cases hres
        exact List.Forall₂.cons hf (ih ys hm)

lemma select_team_representative_mem {r : ℚ} {h : Heap} {team : List ℕ}
    {draws : ℕ → ℚ} {rep : ℕ}
    (hs : select_team_representative r h team draws = some rep) : rep ∈ team := by
  simp only [select_team_representative, Option.map_eq_some'] at hs
  obtain ⟨m, hm, hsnd⟩ := hs
  have hmem := maxByFirst_mem hm
  obtain ⟨x, hx, hxe⟩ := List.mem_map.mp hmem
  have : m.2 = x.2 := by rw [← hxe]
  rw [← hsnd, this]
  rw [← List.enumFrom_map_snd 0 team, ← List.enum_eq_enumFrom]
  exact List.mem_map_of_mem Prod.snd hx

lemma determine_individual_winner_mem {r : ℚ} {h : Heap} {reps : List ℕ}
    {draws : ℕ → ℚ} {w : ℕ}
    (hs : determine_individual_winner r h reps draws = some w) : w ∈ reps := by
  simp only [determine_individual_winner, Option.map_eq_some'] at hs
  obtain ⟨m, hm, hsnd⟩ := hs
  have hmem := maxByFirst_mem hm
  obtain ⟨x, hx, hxe⟩ := List.mem_map.mp hmem
  have : m.2 = x.2 := by rw [← hxe]
  rw [← hsnd, this]
  rw [← List.enumFrom_map_snd 0 reps, ← List.enum_eq_enumFrom]
  exact List.mem_map_of_mem Prod.snd hx

lemma foldl_heapAdd_not_mem (d : ℚ) :
    ∀ (l : List ℕ) (h : Heap) (a : ℕ), a ∉ l →
      (l.foldl (fun hh b => heapAddPoints hh b d) h) a = h a := by
  intro l
  induction l with
  | nil => intro h a _; rfl
  | cons b bs ih =>
    intro h a ha
    rw [List.foldl_cons]
    have hab : a ≠ b := fun he => ha (he ▸ List.mem_cons_self b bs)
    rw [ih _ a (fun hm2 => ha (List.mem_cons_of_mem b hm2))]
    exact heapAddPoints_other h b a d hab

lemma foldl_heapAdd_mem (d : ℚ) :
    ∀ (l : List ℕ) (h : Heap) (a : ℕ), l.Nodup → a ∈ l →
      (l.foldl (fun hh b => heapAddPoints hh b d) h) a =
        { h a with total_points := max 0 ((h a).total_points + d) } := by
  intro l
  induction l with
  | nil => intro h a _ ha; cases ha
  | cons b bs ih =>
    intro h a hnd ha
    rw [List.foldl_cons]
    rcases List.mem_cons.mp ha with rfl | ha2
    · have hnotin : a ∉ bs := (List.nodup_cons.mp hnd).1
      rw [foldl_heapAdd_not_mem d bs _ a hnotin]
      exact heapAddPoints_same h a d
    · have hab : a ≠ b := by
        rintro rfl
        exact (List.nodup_cons.mp hnd).1 ha2
      rw [ih _ a (List.nodup_cons.mp hnd).2 ha2,
        heapAddPoints_other h b a d hab]

lemma foldl_ite_eq_filter (g : Heap → ℕ → Heap) (P : ℕ → Prop)
    [DecidablePred P] :
    ∀ (l : List ℕ) (h : Heap),
      l.foldl (fun hh a => if P a then g hh a else hh) h =
        (l.filter (fun a => decide (P a))).foldl g h := by
  intro l
  induction l with
  | nil => intro h; rfl
  | cons b bs ih =>
    intro h
    rw [List.foldl_cons, List.filter_cons]
    by_cases hp : P b
    · rw [if_pos hp, if_pos (by simpa using hp), List.foldl_cons]
      exact ih _
    · rw [if_neg hp, if_neg (by simpa using hp)]
      exact ih h

/-- `Stage.run_challenge_3`: select one representative per team, pick
the winning representative among them, find the winner's team, then
award `Z` to every member of that team, `C` to the winning
representative, and `-C` to every other representative (identity
comparison `rep != winner_rep` becomes address inequality).
`rep_draws i j` is team `i`'s member-`j` selection draw and
`indiv_draws i` is representative `i`'s final draw; `none` models the
`ValueError` Python raises on an empty team. -/
def run_challenge_3 (h : Heap) (Z C chal_r rep_r : ℚ)
    (teams : List (List ℕ)) (rep_draws : ℕ → ℕ → ℚ)
    (indiv_draws : ℕ → ℚ) : Option ((ℕ × List ℕ × List ℕ) × Heap) :=
  match teams.enum.mapM (fun x =>
      select_team_representative rep_r h x.2 (rep_draws x.1)) with
  | none => none
  | some all_reps =>
    match determine_individual_winner chal_r h all_reps indiv_draws with
    | none => none
    | some winner_rep =>
      let winner_team :=
        (teams.find? (fun team => team.contains winner_rep)).getD []
      let h1 :=
        if winner_team.isEmpty then h
        else
          heapAddPoints
            (winner_team.foldl (fun hh a => heapAddPoints hh a Z) h)
            winner_rep C
      let h2 := all_reps.foldl
        (fun hh rep => if rep ≠ winner_rep then heapAddPoints hh rep (-C)
          else hh) h1
      some ((winner_rep, winner_team, all_reps), h2)

lemma select_team_representative_isSome (r : ℚ) (h : Heap)
    (team : List ℕ) (draws : ℕ → ℚ) (hne : team ≠ []) :
    ∃ rep, select_team_representative r h team draws = some rep := by
  cases team with
  | nil => exact absurd rfl hne
  | cons x xs => exact ⟨_, rfl⟩

lemma determine_individual_winner_isSome (r : ℚ) (h : Heap)
    (reps : List ℕ) (draws : ℕ → ℚ) (hne : reps ≠ []) :
    ∃ w, determine_individual_winner r h reps draws = some w := by
  cases reps with
  | nil => exact absurd rfl hne
  | cons x xs => exact ⟨_, rfl⟩

lemma mapM_option_isSome {α β : Type} (f : α → Option β) :
    ∀ l : List α, (∀ x ∈ l, ∃ y, f x = some y) →
      ∃ res, l.mapM f = some res := by
  intro l
  induction l with
  | nil => intro _; exact ⟨[], rfl⟩
  | cons x xs ih =>
    intro hall
    obtain ⟨y, hy⟩ := hall x (List.mem_cons_self x xs)
    obtain ⟨res, hres⟩ := ih (fun z hz => hall z (List.mem_cons_of_mem x hz))
    refine ⟨y :: res, ?_⟩
    rw [List.mapM_cons, hy, hres]
    rfl

/-- **C3**: a challenge-3 resolution over 3 pairwise disjoint nonempty
teams with nonnegative scores and rewards succeeds, and exactly one
representative (the winner) ends `Z + C` up, every other member of the
winning team ends `Z` up, every other representative gets a `-C`
adjustment through the zero clamp, and no other competitor changes. -/
theorem run_challenge_3_points (h : Heap) (Z C chal_r rep_r : ℚ)
    (teams : List (List ℕ)) (rep_draws : ℕ → ℕ → ℚ) (indiv_draws : ℕ → ℚ)
    (hZ : 0 ≤ Z) (hC : 0 ≤ C) (hpts : ∀ a, 0 ≤ (h a).total_points)
    (hlen3 : teams.length = 3) (hnd : teams.flatten.Nodup)
    (hne : ∀ t ∈ teams, t ≠ []) :
    ∃ (w : ℕ) (wt reps : List ℕ) (hout : Heap),
      run_challenge_3 h Z C chal_r rep_r teams rep_draws indiv_draws =
        some ((w, wt, reps), hout) ∧
      reps.length = 3 ∧ w ∈ reps ∧ w ∈ wt ∧ wt ∈ teams ∧
      (hout w).total_points = (h w).total_points + Z + C ∧
      (∀ m ∈ wt, m ≠ w → (hout m).total_points = (h m).total_points + Z) ∧
      (∀ p ∈ reps, p ≠ w →
        (hout p).total_points = max 0 ((h p).total_points - C)) ∧
      (∀ a, a ∉ wt → a ∉ reps → hout a = h a) := by
  obtain ⟨all_reps, hsel⟩ := mapM_option_isSome
    (fun (x : ℕ × List ℕ) =>
      select_team_representative rep_r h x.2 (rep_draws x.1)) teams.enum
    (fun x hx => by
      apply select_team_representative_isSome
      apply hne
      rw [← List.enumFrom_map_snd 0 teams, ← List.enum_eq_enumFrom]
      exact List.mem_map_of_mem Prod.snd hx)
  -- relate representatives to their teams
  have hrel := mapM_option_forall₂ _ _ _ hsel
  have hlen_enum : teams.enum.length = teams.length := List.enum_length
  have hlen_reps : all_reps.length = 3 := by
    have hle := hrel.length_eq
    omega
  have hmemrel : List.Forall₂ (fun (x : ℕ × List ℕ) b => b ∈ x.2)
      teams.enum all_reps :=
    hrel.imp (fun a b hab => select_team_representative_mem hab)
  have hget := List.forall₂_iff_get.mp hmemrel
  have hrep_in_team : ∀ i (hi : i < all_reps.length) (hti : i < teams.length),
      all_reps.get ⟨i, hi⟩ ∈ teams.get ⟨i, hti⟩ := by
    intro i hi hti
    have h1 : i < teams.enum.length := by omega
    have h2 := hget.2 i h1 hi
    simpa [List.get_eq_getElem, List.getElem_enum] using h2
  have hdisj := List.nodup_flatten.mp hnd
  have hteamND : ∀ t ∈ teams, t.Nodup := hdisj.1
  have hpw_get := List.pairwise_iff_get.mp hdisj.2
  -- representatives are pairwise distinct
  have hrepsND : all_reps.Nodup := by
    have hpair : List.Pairwise (fun a b => a ≠ b) all_reps := by
      apply List.pairwise_iff_get.mpr
      intro i j hij heq
      have hd := hpw_get ⟨i.1, by omega⟩ ⟨j.1, by omega⟩
        (by simpa [Fin.mk_lt_mk] using hij)
      exact hd (hrep_in_team i.1 i.2 (by omega))
        (heq ▸ hrep_in_team j.1 j.2 (by omega))
    exact hpair
  have hreps_ne : all_reps ≠ [] := by
    intro hnil
    rw [hnil] at hlen_reps
    cases hlen_reps
  obtain ⟨winner, hwin⟩ :=
    determine_individual_winner_isSome chal_r h all_reps indiv_draws hreps_ne
  -- the winner is one of the representatives
  have hw_mem : winner ∈ all_reps := determine_individual_winner_mem hwin
  obtain ⟨iw, hiw_eq⟩ := List.mem_iff_get.mp hw_mem
  have hiw_t : iw.1 < teams.length := by omega
  have hw_in_team : winner ∈ teams.get ⟨iw.1, hiw_t⟩ :=
    hiw_eq ▸ hrep_in_team iw.1 iw.2 hiw_t
  -- the find? lookup succeeds and returns the winner's team
  cases hfind : teams.find? (fun team => team.contains winner) with
  | none =>
    exfalso
    rw [List.find?_eq_none] at hfind
    refine hfind (teams.get ⟨iw.1, hiw_t⟩) (List.get_mem teams _ _) ?_
    simp only [List.contains_iff_exists_mem_beq, beq_iff_eq]
    exact ⟨winner, hw_in_team, rfl⟩
  | some wt0 =>
  have hw_in_wt0 : winner ∈ wt0 := by
    have hs := List.find?_some hfind
    simp only [List.contains_iff_exists_mem_beq, beq_iff_eq] at hs
    obtain ⟨a, ha, rfl⟩ := hs
    exact ha
  have hwt0_mem : wt0 ∈ teams := List.mem_of_find?_eq_some hfind
  obtain ⟨m, hm_eq⟩ := List.mem_iff_get.mp hwt0_mem
  have hm_eq_iw : m.1 = iw.1 := by
    by_contra hne2
    rcases Nat.lt_or_ge m.1 iw.1 with hlt | hge
    · exact hpw_get m ⟨iw.1, hiw_t⟩ (by simpa [Fin.mk_lt_mk] using hlt)
        (hm_eq ▸ hw_in_wt0) hw_in_team
    · have hlt2 : iw.1 < m.1 := by omega
      exact hpw_get ⟨iw.1, hiw_t⟩ m (by simpa [Fin.mk_lt_mk] using hlt2)
        hw_in_team (hm_eq ▸ hw_in_wt0)
  have hwt0_eq : wt0 = teams.get ⟨iw.1, hiw_t⟩ := by
    rw [← hm_eq]
    congr 1
    exact Fin.ext hm_eq_iw
  -- non-winner representatives lie outside the winning team
  have hrep_notin : ∀ p ∈ all_reps, p ≠ winner → p ∉ wt0 := by
    intro p hp hpw hin
    obtain ⟨j, hj_eq⟩ := List.mem_iff_get.mp hp
    have hj_ne : j.1 ≠ iw.1 := by
      intro hji
      apply hpw
      rw [← hj_eq, ← hiw_eq]
      congr 1
      exact Fin.ext hji
    rw [hwt0_eq] at hin
    rcases Nat.lt_or_ge j.1 iw.1 with hlt | hge
    · exact hpw_get ⟨j.1, by omega⟩ ⟨iw.1, hiw_t⟩
        (by simpa [Fin.mk_lt_mk] using hlt)
        (hj_eq ▸ hrep_in_team j.1 j.2 (by omega)) hin
    · have hlt2 : iw.1 < j.1 := by omega
      exact hpw_get ⟨iw.1, hiw_t⟩ ⟨j.1, by omega⟩
        (by simpa [Fin.mk_lt_mk] using hlt2) hin
        (hj_eq ▸ hrep_in_team j.1 j.2 (by omega))
  have hwtND : wt0.Nodup := hteamND wt0 hwt0_mem
  have hempty : wt0.isEmpty = false := by
    cases wt0 with
    | nil => cases hw_in_wt0
    | cons x xs => rfl
  have hout_eq : (all_reps.foldl
      (fun hh rep => if rep ≠ winner then heapAddPoints hh rep (-C) else hh)
      (if wt0.isEmpty then h
       else heapAddPoints (wt0.foldl (fun hh a => heapAddPoints hh a Z) h)
         winner C)) =
    ((all_reps.filter (fun a => decide (a ≠ winner))).foldl
      (fun hh rep => heapAddPoints hh rep (-C))
      (heapAddPoints (wt0.foldl (fun hh a => heapAddPoints hh a Z) h)
        winner C)) := by
    rw [hempty]
    simp only [Bool.false_eq_true, if_false]
    rw [foldl_ite_eq_filter (fun hh rep => heapAddPoints hh rep (-C))
      (fun rep => rep ≠ winner) all_reps]
  -- the heap after the team award and the winner bonus
  have hZw : ((wt0.foldl (fun hh a => heapAddPoints hh a Z) h) winner) =
      { h winner with
        total_points := max 0 ((h winner).total_points + Z) } :=
    foldl_heapAdd_mem Z wt0 h winner hwtND hw_in_wt0
  have hwinner_h1 : ((heapAddPoints
      (wt0.foldl (fun hh a => heapAddPoints hh a Z) h) winner C)
        winner).total_points =
      (h winner).total_points + Z + C := by
    rw [heapAddPoints_same]
    dsimp only
    rw [hZw]
    dsimp only
    rw [max_eq_right (by have := hpts winner; linarith :
      (0 : ℚ) ≤ (h winner).total_points + Z)]
    exact max_eq_right (by have := hpts winner; linarith)
  have hwinner_notin_filter :
      winner ∉ all_reps.filter (fun a => decide (a ≠ winner)) := by
    intro hmem
    have := List.mem_filter.mp hmem
    simp at this
  refine ⟨winner, wt0, all_reps,
    all_reps.foldl
      (fun hh rep => if rep ≠ winner then heapAddPoints hh rep (-C) else hh)
      (if wt0.isEmpty then h
       else heapAddPoints (wt0.foldl (fun hh a => heapAddPoints hh a Z) h)
         winner C),
    ?_, hlen_reps, hw_mem, hw_in_wt0, hwt0_mem, ?_, ?_, ?_, ?_⟩
  · -- the resolution succeeds with these components
    unfold run_challenge_3
    rw [hsel]
    dsimp only
    rw [hwin]
    dsimp only
    rw [hfind]
    rfl
  · -- winner total
    rw [hout_eq, foldl_heapAdd_not_mem (-C) _ _ winner hwinner_notin_filter]
    exact hwinner_h1
  · -- other winning-team members
    intro mb hmb hmbw
    have hmb_notin : mb ∉ all_reps.filter (fun a => decide (a ≠ winner)) := by
      intro hmem
      have hf := List.mem_filter.mp hmem
      exact hrep_notin mb hf.1 (by simpa using hf.2) hmb
    rw [hout_eq, foldl_heapAdd_not_mem (-C) _ _ mb hmb_notin,
      heapAddPoints_other _ winner mb C hmbw,
      foldl_heapAdd_mem Z wt0 h mb hwtND hmb]
    exact max_eq_right (by have := hpts mb; linarith)
  · -- losing representatives
    intro p hp hpw
    have hp_in_filter : p ∈ all_reps.filter (fun a => decide (a ≠ winner)) :=
      List.mem_filter.mpr ⟨hp, by simpa using hpw⟩
    have hfilterND : (all_reps.filter (fun a => decide (a ≠ winner))).Nodup :=
      hrepsND.filter _
    rw [hout_eq, foldl_heapAdd_mem (-C) _ _ p hfilterND hp_in_filter]
    have hp_notin_wt : p ∉ wt0 := hrep_notin p hp hpw
    rw [heapAddPoints_other _ winner p C hpw,
      foldl_heapAdd_not_mem Z wt0 h p hp_notin_wt]
    rw [sub_eq_add_neg]
  · -- untouched competitors
    intro a ha_wt ha_reps
    have ha_filter : a ∉ all_reps.filter (fun b => decide (b ≠ winner)) := by
      intro hmem
      exact ha_reps (List.mem_filter.mp hmem).1
    have ha_w : a ≠ winner := fun he => ha_reps (he ▸ hw_mem)
    rw [hout_eq, foldl_heapAdd_not_mem (-C) _ _ a ha_filter,
      heapAddPoints_other _ winner a C ha_w,
      foldl_heapAdd_not_mem Z wt0 h a ha_wt]

/-- The C3 witness heap: address `a` holds skill `a` and no points. -/
def heapC3 : Heap := fun a => ⟨a, "S", (a : ℚ), 0⟩

/-- Witness for C3 at a concrete 3-team split of addresses 0..5 with
`Z = 2` and `C = 1`. -/
theorem run_challenge_3_points_witness :
    ∃ (w : ℕ) (wt reps : List ℕ) (hout : Heap),
      run_challenge_3 heapC3 2 1 0 0 [[0, 1], [2, 3], [4, 5]]
          (fun _ _ => 0) (fun _ => 0) = some ((w, wt, reps), hout) ∧
      reps.length = 3 ∧ w ∈ reps ∧ w ∈ wt ∧
      wt ∈ [[0, 1], [2, 3], [4, 5]] ∧
      (hout w).total_points = (heapC3 w).total_points + 2 + 1 ∧
      (∀ m ∈ wt, m ≠ w →
        (hout m).total_points = (heapC3 m).total_points + 2) ∧
      (∀ p ∈ reps, p ≠ w →
        (hout p).total_points = max 0 ((heapC3 p).total_points - 1)) ∧
      (∀ a, a ∉ wt → a ∉ reps → hout a = heapC3 a) :=
  run_challenge_3_points heapC3 2 1 0 0 [[0, 1], [2, 3], [4, 5]]
    (fun _ _ => 0) (fun _ => 0) (by norm_num) (by norm_num)
    (fun a => le_refl 0) rfl (by decide) (by decide)

/-- The dict `{p.id: p.total_points for p in leaderboard}` read off the
heap.  The source builds it from the sorted leaderboard, a permutation
of the roster, so with unique ids the entries are the same. -/
def heapScoreMap (h : Heap) (leaderboard : List ℕ) : ℕ → ℚ :=
  leaderboard.foldl
    (fun m a => fun j => if j = (h a).id then (h a).total_points else m j)
    (fun _ => 0)

/-- The stage-5 capture of `Competition.simulate_stage` on the heap:
`Participant(p.id, p.name, p.initial_skill)` allocates a fresh object
per roster entry — modelled at the fresh addresses `base + i` — and
its `total_points` is set from the id-keyed dict of current scores.
Returns the heap extended with the copies, and their addresses. -/
def takeSnapshotHeap (h : Heap) (roster : List ℕ) (base : ℕ) :
    Heap × List ℕ :=
  let current_leaderboard_points := heapScoreMap h roster
  let snapHeap : Heap := fun b =>
    if b < base then h b
    else if b - base < roster.length then
      { id := (h (roster.getD (b - base) 0)).id,
        name := (h (roster.getD (b - base) 0)).name,
        initial_skill := (h (roster.getD (b - base) 0)).initial_skill,
        total_points :=
          current_leaderboard_points (h (roster.getD (b - base) 0)).id }
    else h b
  (snapHeap, (List.range roster.length).map (fun i => base + i))

lemma foldl_muts_frame (muts : List (ℕ × ℚ)) :
    ∀ (hh : Heap) (s : ℕ), (∀ m ∈ muts, m.1 ≠ s) →
      (muts.foldl (fun hh2 m => heapAddPoints hh2 m.1 m.2) hh) s = hh s := by
  induction muts with
  | nil => intro hh s _; rfl
  | cons m ms ih =>
    intro hh s hall
    rw [List.foldl_cons,
      ih _ s (fun m2 hm2 => hall m2 (List.mem_cons_of_mem m hm2))]
    exact heapAddPoints_other hh m.1 s m.2
      (fun he => hall m (List.mem_cons_self m ms) (he ▸ rfl))

/-- **C8**: the stage-5 snapshot entries are fresh objects — their
addresses are disjoint from the live roster — one per roster entry,
each carrying a copy of the competitor's fields with `total_points`
frozen from the stage-5 score dict; and no sequence of `add_points`
mutations aimed at live roster objects changes any snapshot cell. -/
theorem stage5_snapshot_frame (h : Heap) (roster : List ℕ) (base : ℕ)
    (hfresh : ∀ a ∈ roster, a < base) :
    (∀ s ∈ (takeSnapshotHeap h roster base).2, s ∉ roster) ∧
    ((takeSnapshotHeap h roster base).2.length = roster.length) ∧
    (∀ i, i < roster.length →
      (takeSnapshotHeap h roster base).1 (base + i) =
        { id := (h (roster.getD i 0)).id,
          name := (h (roster.getD i 0)).name,
          initial_skill := (h (roster.getD i 0)).initial_skill,
          total_points := heapScoreMap h roster (h (roster.getD i 0)).id }) ∧
    (∀ muts : List (ℕ × ℚ), (∀ m ∈ muts, m.1 ∈ roster) →
      ∀ s ∈ (takeSnapshotHeap h roster base).2,
        (muts.foldl (fun hh m => heapAddPoints hh m.1 m.2)
            (takeSnapshotHeap h roster base).1) s =
          (takeSnapshotHeap h roster base).1 s) := by
  refine ⟨?_, ?_, ?_, ?_⟩
  · intro s hs hmem
    simp only [takeSnapshotHeap, List.mem_map, List.mem_range] at hs
    obtain ⟨i, hi, rfl⟩ := hs
    have := hfresh _ hmem
    omega
  · simp [takeSnapshotHeap]
  · intro i hi
    simp only [takeSnapshotHeap]
    rw [if_neg (by omega)]
    rw [show base + i - base = i by omega]
    rw [if_pos hi]
  · intro muts hmuts s hs
    apply foldl_muts_frame
    intro m hm he
    simp only [takeSnapshotHeap, List.mem_map, List.mem_range] at hs
    obtain ⟨i, hi, rfl⟩ := hs
    have := hfresh m.1 (hmuts m hm)
    omega

/-- Witness for C8: mutating both roster objects leaves the first
snapshot cell untouched. -/
theorem stage5_snapshot_frame_witness :
    ([((0 : ℕ), (5 : ℚ)), (1, -3)].foldl
        (fun hh m => heapAddPoints hh m.1 m.2)
        (takeSnapshotHeap heapC3 [0, 1] 10).1) 10 =
      (takeSnapshotHeap heapC3 [0, 1] 10).1 10 :=
  (stage5_snapshot_frame heapC3 [0, 1] 10 (by decide)).2.2.2
    [(0, 5), (1, -3)] (by decide) 10 (by decide)

/-- The per-run quantities `run_parameter_test` aggregates: the two
stability outputs, the collision and contender counts, and each
competitor's final score (names abstracted to naturals). -/
structure RunMetrics where
  stability_score : ℚ
  successful_players : ℕ
  collision_size : ℕ
  contender_count : ℕ
  final_points : ℕ → ℚ

/-- The per-tuple averages `run_parameter_test` computes. -/
structure TupleAverages where
  avg_stability_score : ℚ
  avg_successful_players_count : ℚ
  avg_cut_off_collision_size : ℚ
  avg_contender_count : ℚ
  avg_score : ℕ → ℚ

/-- The aggregation of `run_parameter_test`: accumulate the four totals
and the per-name score tracker over the runs, then divide each total
by `num_runs` (the number of runs). -/
def run_parameter_test_averages (runs : List RunMetrics) : TupleAverages :=
  let total_stability_score :=
    runs.foldl (fun acc r => acc + r.stability_score) 0
  let total_successful_players :=
    runs.foldl (fun (acc : ℕ) r => acc + r.successful_players) 0
  let total_collision_size :=
    runs.foldl (fun (acc : ℕ) r => acc + r.collision_size) 0
  let total_contender_count :=
    runs.foldl (fun (acc : ℕ) r => acc + r.contender_count) 0
  let avg_score_tracker : ℕ → ℚ :=
    runs.foldl (fun tracker r => fun n => tracker n + r.final_points n)
      (fun _ => 0)
  let num_runs_f : ℚ := (runs.length : ℚ)
  { avg_stability_score := total_stability_score / num_runs_f,
    avg_successful_players_count :=
      (total_successful_players : ℚ) / num_runs_f,
    avg_cut_off_collision_size := (total_collision_size : ℚ) / num_runs_f,
    avg_contender_count := (total_contender_count : ℚ) / num_runs_f,
    avg_score := fun n => avg_score_tracker n / num_runs_f }

/-- **C9**: aggregating a single run reproduces that run's metrics
exactly: every per-tuple average, including each competitor's average
score, equals the corresponding single-run value. -/
theorem run_parameter_test_single_run (m : RunMetrics) :
    (run_parameter_test_averages [m]).avg_stability_score =
        m.stability_score ∧
    (run_parameter_test_averages [m]).avg_successful_players_count =
        (m.successful_players : ℚ) ∧
    (run_parameter_test_averages [m]).avg_cut_off_collision_size =
        (m.collision_size : ℚ) ∧
    (run_parameter_test_averages [m]).avg_contender_count =
        (m.contender_count : ℚ) ∧
    ∀ n, (run_parameter_test_averages [m]).avg_score n = m.final_points n := by
  refine ⟨?_, ?_, ?_, ?_, fun n => ?_⟩ <;>
    simp [run_parameter_test_averages]
